import Mathlib

/-!
Verification of the doit task tracker core.

Shallow embedding of the deadline-parsing, task-ordering and streak-tracking
logic of the doit task tracker, translated from the Go sources
(`internal/models/todo.go`, `internal/storage/storage.go`, and the
`utils` deadline parser), together with theorems checking the
natural-language specification against it.

`time.Time` instants and `time.Duration` values are modelled as integer
nanosecond counts; the wall clock and the calendar (month arithmetic,
day-label formatting) appear as explicit parameters, since the Go code
obtains them from the environment.
-/

namespace Doit

/-! ## Time model -/

def nsPerMinute : Int := 60000000000
def nsPerHour : Int := 3600000000000
def nsPerDay : Int := 86400000000000
def nsPerWeek : Int := 604800000000000

/-! ## Task model (internal/models/todo.go) -/

structure Todo where
  id : String
  title : String
  description : String
  deadline : Option Int
  completed : Bool
  completedAt : Option Int
  createdAt : Int
  updatedAt : Int
deriving Repr, DecidableEq

/-- Embedding of `Todo.DaysUntilDeadline` from `internal/models/todo.go`: `-1` when no
deadline is set, otherwise `int(time.Until(deadline).Hours() / 24)`, i.e.
the nanosecond difference divided by 24h, truncated toward zero. -/
def DaysUntilDeadline (now : Int) (t : Todo) : Int :=
  match t.deadline with
  | none => -1
  | some d => Int.tdiv (d - now) nsPerDay

/-! ## Task ordering engine (internal/storage/storage.go) -/

/-- The `sort.Slice` comparator of `GetAllTodos` (storage.go lines 122-143):
incomplete todos first; among incomplete todos, deadline-bearing before
deadline-free and earlier deadline first; otherwise creation time descending. -/
def lessTodo (a b : Todo) : Bool :=
  if a.completed ≠ b.completed then
    !a.completed
  else if !a.completed then
    match a.deadline, b.deadline with
    | some da, some db => decide (da < db)
    | some _, none => true
    | none, some _ => false
    | none, none => decide (a.createdAt > b.createdAt)
  else
    decide (a.createdAt > b.createdAt)

/-- The comparator used by `GetTopUpcomingTodos` (storage.go lines 280-285):
`false` when either deadline is nil, otherwise `Deadline.Before`. -/
def lessUpcoming (a b : Todo) : Bool :=
  match a.deadline, b.deadline with
  | some da, some db => decide (da < db)
  | _, _ => false

/-- Insert into a sorted list, keeping `le`-sortedness (models the effect of
Go's `sort.Slice`, which guarantees a permutation pairwise-ordered by the
comparator). -/
def orderedInsert {α : Type} (le : α → α → Bool) (a : α) : List α → List α
  | [] => [a]
  | b :: l => if le a b then a :: b :: l else b :: orderedInsert le a l

/-- Comparison sort by the boolean relation `le` (models Go's `sort.Slice`). -/
def sortBy {α : Type} (le : α → α → Bool) : List α → List α
  | [] => []
  | a :: l => orderedInsert le a (sortBy le l)

/-- Embedding of `GetAllTodos` (storage.go lines 102-146), restricted to its pure part:
the decoded todo collection sorted with the `lessTodo` comparator. -/
def GetAllTodos (todos : List Todo) : List Todo :=
  sortBy (fun a b => !lessTodo b a) todos

/-- Embedding of `GetTopUpcomingTodos` (storage.go lines 272-291): filter to incomplete
deadline-bearing todos, sort ascending by deadline, truncate to `limit`. -/
def GetTopUpcomingTodos (todos : List Todo) (limit : Nat) : List Todo :=
  let upcomingTodos := todos.filter (fun t => !t.completed && t.deadline.isSome)
  let sorted := sortBy (fun a b => !lessUpcoming b a) upcomingTodos
  if sorted.length > limit then sorted.take limit else sorted

/-- Embedding of `GetTodosWithoutDeadline` (storage.go lines 294-302). -/
def GetTodosWithoutDeadline (todos : List Todo) : List Todo :=
  todos.filter (fun t => !t.completed && t.deadline.isNone)

/-! ### Generic facts about `sortBy` -/

theorem perm_orderedInsert {α : Type} (le : α → α → Bool) (a : α) (l : List α) :
    (orderedInsert le a l).Perm (a :: l) := by
  induction l with
  | nil => simp [orderedInsert]
  | cons b l ih =>
    simp only [orderedInsert]
    split
    · exact List.Perm.refl _
    · exact ((ih.cons b).trans (List.Perm.swap a b l))

theorem perm_sortBy {α : Type} (le : α → α → Bool) (l : List α) :
    (sortBy le l).Perm l := by
  induction l with
  | nil => simp [sortBy]
  | cons a l ih =>
    exact (perm_orderedInsert le a (sortBy le l)).trans (ih.cons a)

theorem pairwise_orderedInsert {α : Type} (le : α → α → Bool) (P : α → Prop)
    (total : ∀ x y, P x → P y → le x y = false → le y x = true)
    (trans : ∀ x y z, P x → P y → P z → le x y = true → le y z = true → le x z = true)
    (a : α) (l : List α) (ha : P a) (hl : ∀ x ∈ l, P x)
    (hs : l.Pairwise (fun x y => le x y = true)) :
    (orderedInsert le a l).Pairwise (fun x y => le x y = true) := by
  induction l with
  | nil => simp [orderedInsert]
  | cons b l ih =>
    have hPb : P b := hl b (List.mem_cons_self b l)
    have hPl : ∀ x ∈ l, P x := fun x hx => hl x (List.mem_cons_of_mem b hx)
    simp only [orderedInsert]
    by_cases hab : le a b = true
    · rw [if_pos hab]
      refine List.Pairwise.cons ?_ hs
      intro x hx
      rcases List.mem_cons.mp hx with rfl | hx
      · exact hab
      · have hbx := (List.pairwise_cons.mp hs).1 x hx
        exact trans a b x ha hPb (hPl x hx) hab hbx
    · rw [if_neg hab]
      have hba : le b a = true :=
        total a b ha hPb (Bool.eq_false_iff.mpr hab)
      have hrest := ih hPl (List.Pairwise.sublist (List.sublist_cons_self b l) hs)
      refine List.Pairwise.cons ?_ hrest
      intro x hx
      rcases List.mem_cons.mp ((perm_orderedInsert le a l).mem_iff.mp hx) with rfl | hx'
      · exact hba
      · exact (List.pairwise_cons.mp hs).1 x hx'

theorem pairwise_sortBy {α : Type} (le : α → α → Bool) (P : α → Prop)
    (total : ∀ x y, P x → P y → le x y = false → le y x = true)
    (trans : ∀ x y z, P x → P y → P z → le x y = true → le y z = true → le x z = true)
    (l : List α) (hl : ∀ x ∈ l, P x) :
    (sortBy le l).Pairwise (fun x y => le x y = true) := by
  induction l with
  | nil => simp [sortBy]
  | cons a l ih =>
    have hmem : ∀ x ∈ sortBy le l, P x := by
      intro x hx
      exact hl x (by simp [(perm_sortBy le l).mem_iff.mp hx])
    exact pairwise_orderedInsert le P total trans a (sortBy le l)
      (hl a (by simp)) hmem (ih (fun x hx => hl x (by simp [hx])))

/-! ### The full-listing comparator is the strict part of a lexicographic key -/

/-- Lexicographic key realizing `lessTodo`: completed-flag rank, then
deadline-presence rank, then deadline (or negated creation time). -/
def sortKey (t : Todo) : Nat × Nat × Int :=
  if t.completed then (1, 0, -t.createdAt)
  else
    match t.deadline with
    | some d => (0, 0, d)
    | none => (0, 1, -t.createdAt)

def keyLt (x y : Nat × Nat × Int) : Prop :=
  x.1 < y.1 ∨ (x.1 = y.1 ∧ (x.2.1 < y.2.1 ∨ (x.2.1 = y.2.1 ∧ x.2.2 < y.2.2)))

theorem lessTodo_iff_keyLt (a b : Todo) :
    lessTodo a b = true ↔ keyLt (sortKey a) (sortKey b) := by
  rcases a with ⟨_, _, _, da, ca, _, ta, _⟩
  rcases b with ⟨_, _, _, db, cb, _, tb, _⟩
  cases ca <;> cases cb <;> rcases da with _ | da <;> rcases db with _ | db <;>
    simp [lessTodo, sortKey, keyLt]

/-- The full-listing order exactly as the specification words it. -/
def specLess (a b : Todo) : Prop :=
  (a.completed = false ∧ b.completed = true) ∨
  (a.completed = false ∧ b.completed = false ∧
    a.deadline.isSome = true ∧ b.deadline = none) ∨
  (a.completed = false ∧ b.completed = false ∧
    ∃ da db, a.deadline = some da ∧ b.deadline = some db ∧ da < db) ∨
  (((a.completed = true ∧ b.completed = true) ∨
    (a.completed = false ∧ b.completed = false ∧
      a.deadline = none ∧ b.deadline = none)) ∧
    b.createdAt < a.createdAt)

theorem specLess_iff_lessTodo (a b : Todo) :
    specLess a b ↔ lessTodo a b = true := by
  rcases a with ⟨_, _, _, da, ca, _, ta, _⟩
  rcases b with ⟨_, _, _, db, cb, _, tb, _⟩
  cases ca <;> cases cb <;> rcases da with _ | da <;> rcases db with _ | db <;>
    simp [lessTodo, specLess]

theorem getAll_le_total (x y : Todo) (hxy : (!lessTodo y x) = false) :
    (!lessTodo x y) = true := by
  simp only [Bool.not_eq_false', Bool.not_eq_true'] at hxy ⊢
  rw [Bool.eq_false_iff]
  intro hx
  have h1 := (lessTodo_iff_keyLt y x).mp hxy
  have h2 := (lessTodo_iff_keyLt x y).mp hx
  unfold keyLt at h1 h2
  omega

theorem getAll_le_trans (x y z : Todo) (h1 : (!lessTodo y x) = true)
    (h2 : (!lessTodo z y) = true) : (!lessTodo z x) = true := by
  simp only [Bool.not_eq_true'] at h1 h2 ⊢
  rw [Bool.eq_false_iff]
  intro hzx
  have k := (lessTodo_iff_keyLt z x).mp hzx
  have k1 : ¬ keyLt (sortKey y) (sortKey x) := fun h =>
    by simp [(lessTodo_iff_keyLt y x).mpr h] at h1
  have k2 : ¬ keyLt (sortKey z) (sortKey y) := fun h =>
    by simp [(lessTodo_iff_keyLt z y).mpr h] at h2
  unfold keyLt at k k1 k2
  omega

/-- C3. The full listing returned by `GetAllTodos` is a permutation of the
task collection sorted by the specification's order: incomplete before
completed; among incomplete, deadline-bearing first, earlier deadline first;
all remaining pairs by creation time descending — and that order coincides
with the code's comparator. -/
theorem getAllTodos_ordering (todos : List Todo) :
    (GetAllTodos todos).Perm todos ∧
    (GetAllTodos todos).Pairwise (fun a b => ¬ specLess b a) ∧
    (∀ a b, specLess a b ↔ lessTodo a b = true) := by
  refine ⟨perm_sortBy _ todos, ?_, specLess_iff_lessTodo⟩
  have hp := pairwise_sortBy (fun a b => !lessTodo b a) (fun _ => True)
    (fun x y _ _ h => getAll_le_total x y h)
    (fun x y z _ _ _ h1 h2 => getAll_le_trans x y z h1 h2)
    todos (fun _ _ => trivial)
  refine hp.imp ?_
  intro a b hab hba
  rw [specLess_iff_lessTodo] at hba
  simp [hba] at hab

/-! ### Top-N upcoming view -/

theorem topUpcoming_eq_take (todos : List Todo) (limit : Nat) :
    GetTopUpcomingTodos todos limit =
      (sortBy (fun a b => !lessUpcoming b a)
        (todos.filter (fun t => !t.completed && t.deadline.isSome))).take limit := by
  unfold GetTopUpcomingTodos
  dsimp only
  split
  · rfl
  · next h => rw [List.take_of_length_le (Nat.le_of_not_lt h)]

theorem upcoming_le_total (x y : Todo) (hx : x.deadline.isSome = true)
    (hy : y.deadline.isSome = true) (h : (!lessUpcoming y x) = false) :
    (!lessUpcoming x y) = true := by
  rcases Option.isSome_iff_exists.mp hx with ⟨dx, hdx⟩
  rcases Option.isSome_iff_exists.mp hy with ⟨dy, hdy⟩
  simp [lessUpcoming, hdx, hdy] at h ⊢
  omega

theorem upcoming_le_trans (x y z : Todo) (hx : x.deadline.isSome = true)
    (hy : y.deadline.isSome = true) (hz : z.deadline.isSome = true)
    (h1 : (!lessUpcoming y x) = true) (h2 : (!lessUpcoming z y) = true) :
    (!lessUpcoming z x) = true := by
  rcases Option.isSome_iff_exists.mp hx with ⟨dx, hdx⟩
  rcases Option.isSome_iff_exists.mp hy with ⟨dy, hdy⟩
  rcases Option.isSome_iff_exists.mp hz with ⟨dz, hdz⟩
  simp [lessUpcoming, hdx, hdy, hdz] at h1 h2 ⊢
  omega

/-- C4. The top-N upcoming view holds exactly the incomplete deadline-bearing
tasks, sorted ascending by deadline, truncated to at most `limit`; when
`limit` exceeds their number all are returned, and no completed or
deadline-free task ever appears. The view selects the soonest deadlines:
every returned task's deadline is at most the deadline of every eligible
task left out. -/
theorem topUpcoming_spec (todos : List Todo) (limit : Nat) :
    (∀ t ∈ GetTopUpcomingTodos todos limit,
        t.completed = false ∧ t.deadline.isSome = true) ∧
    (GetTopUpcomingTodos todos limit).length =
      min limit (todos.filter (fun t => !t.completed && t.deadline.isSome)).length ∧
    (GetTopUpcomingTodos todos limit).Pairwise
      (fun a b => ∀ da db, a.deadline = some da → b.deadline = some db → da ≤ db) ∧
    (GetTopUpcomingTodos todos limit).Subperm
      (todos.filter (fun t => !t.completed && t.deadline.isSome)) ∧
    ((todos.filter (fun t => !t.completed && t.deadline.isSome)).length ≤ limit →
      (GetTopUpcomingTodos todos limit).Perm
        (todos.filter (fun t => !t.completed && t.deadline.isSome))) ∧
    (∀ t ∈ GetTopUpcomingTodos todos limit,
      ∀ u ∈ todos.filter (fun t => !t.completed && t.deadline.isSome),
        u ∉ GetTopUpcomingTodos todos limit →
        ∀ dt du, t.deadline = some dt → u.deadline = some du → dt ≤ du) := by
  have hperm := perm_sortBy (fun a b => !lessUpcoming b a)
    (todos.filter (fun t => !t.completed && t.deadline.isSome))
  have hmemF : ∀ t ∈ todos.filter (fun t => !t.completed && t.deadline.isSome),
      t.completed = false ∧ t.deadline.isSome = true := by
    intro t ht
    have := (List.mem_filter.mp ht).2
    simp only [Bool.and_eq_true, Bool.not_eq_true'] at this
    exact this
  have hp := pairwise_sortBy (fun a b => !lessUpcoming b a)
    (fun t => t.deadline.isSome = true)
    (fun x y hx hy h => upcoming_le_total x y hx hy h)
    (fun x y z hx hy hz h1 h2 => upcoming_le_trans x y z hx hy hz h1 h2)
    (todos.filter (fun t => !t.completed && t.deadline.isSome))
    (fun t ht => (hmemF t ht).2)
  refine ⟨?_, ?_, ?_, ?_, ?_, ?_⟩
  · intro t ht
    rw [topUpcoming_eq_take] at ht
    exact hmemF t (hperm.mem_iff.mp (List.take_subset _ _ ht))
  · rw [topUpcoming_eq_take, List.length_take, hperm.length_eq]
  · rw [topUpcoming_eq_take]
    refine (List.Pairwise.sublist (List.take_sublist limit _) hp).imp ?_
    intro a b hab da db hda hdb
    simp [lessUpcoming, hda, hdb] at hab
    omega
  · rw [topUpcoming_eq_take]
    exact ((List.take_sublist limit _).subperm).trans hperm.subperm
  · intro h
    rw [topUpcoming_eq_take, List.take_of_length_le (by rw [hperm.length_eq]; exact h)]
    exact hperm
  · intro t ht u hu hnotu dt du hdt hdu
    rw [topUpcoming_eq_take] at ht hnotu
    have hp2 : ((sortBy (fun a b => !lessUpcoming b a)
        (todos.filter (fun t => !t.completed && t.deadline.isSome))).take limit ++
        (sortBy (fun a b => !lessUpcoming b a)
        (todos.filter (fun t => !t.completed && t.deadline.isSome))).drop limit).Pairwise
        (fun x y => (!lessUpcoming y x) = true) := by
      rw [List.take_append_drop]
      exact hp
    have huS : u ∈ sortBy (fun a b => !lessUpcoming b a)
        (todos.filter (fun t => !t.completed && t.deadline.isSome)) :=
      hperm.mem_iff.mpr hu
    have hsplit : u ∈ (sortBy (fun a b => !lessUpcoming b a)
        (todos.filter (fun t => !t.completed && t.deadline.isSome))).take limit ++
        (sortBy (fun a b => !lessUpcoming b a)
        (todos.filter (fun t => !t.completed && t.deadline.isSome))).drop limit := by
      rw [List.take_append_drop]
      exact huS
    have hudrop : u ∈ (sortBy (fun a b => !lessUpcoming b a)
        (todos.filter (fun t => !t.completed && t.deadline.isSome))).drop limit := by
      rcases List.mem_append.mp hsplit with h | h
      · exact absurd h hnotu
      · exact h
    have hcross := (List.pairwise_append.mp hp2).2.2 t ht u hudrop
    simp [lessUpcoming, hdt, hdu] at hcross
    omega

/-! ## Streak tracker (internal/storage/storage.go) -/

/-- Embedding of `Streak` (storage.go lines 35-41). `lastCompletedAt = none` models the
zero `time.Time` (Go's `IsZero`); `dailyCompletions = none` models a nil
map. -/
structure Streak where
  currentStreak : Int
  maxStreak : Int
  lastCompletedAt : Option Int
  totalCompleted : Int
  dailyCompletions : Option (List (String × Int))
deriving Repr, DecidableEq

/-- The zero-valued streak `GetStreak` materializes when nothing is stored
(storage.go lines 194-201). -/
def initialStreak : Streak :=
  { currentStreak := 0, maxStreak := 0, lastCompletedAt := none,
    totalCompleted := 0, dailyCompletions := some [] }

/-- Go's `m[k]++` on a `map[string]int`: bump the entry, inserting `1` when
the key is absent. -/
def bumpDay : List (String × Int) → String → List (String × Int)
  | [], k => [(k, 1)]
  | (k', v) :: rest, k =>
    if k' = k then (k', v + 1) :: rest else (k', v) :: bumpDay rest k

/-- Go map read with zero default. -/
def lookupDay : List (String × Int) → String → Int
  | [], _ => 0
  | (k', v) :: rest, k => if k' = k then v else lookupDay rest k

/-- Embedding of `updateStreakOnCompletion` (storage.go lines 225-264) as a pure state
transition. `now` is the wall clock sampled by the call and `fmtDay` the
calendar rendering `now.Format("2006-01-02")`; the persistence wrappers
(`GetStreak` read, `UpdateStreak` write) around the mutation are elided. -/
def updateStreakOnCompletion (fmtDay : Int → String) (now : Int)
    (streak : Streak) : Streak :=
  let today := fmtDay now
  let daily :=
    match streak.dailyCompletions with
    | none => []
    | some m => m
  let daily := bumpDay daily today
  let total := streak.totalCompleted + 1
  let cm :=
    match streak.lastCompletedAt with
    | some last =>
      let daysSinceLastCompletion := Int.tdiv (now - last) nsPerDay
      if daysSinceLastCompletion = 0 then
        (streak.currentStreak, streak.maxStreak)
      else if daysSinceLastCompletion = 1 then
        let cur := streak.currentStreak + 1
        (cur, if cur > streak.maxStreak then cur else streak.maxStreak)
      else
        (1, streak.maxStreak)
    | none =>
      (1, if streak.maxStreak = 0 then 1 else streak.maxStreak)
  { currentStreak := cm.1, maxStreak := cm.2, lastCompletedAt := some now,
    totalCompleted := total, dailyCompletions := some daily }

/-- The per-day completion count a `Streak` records for day label `k`. -/
def dailyCount (s : Streak) (k : String) : Int :=
  lookupDay (s.dailyCompletions.getD []) k

theorem lookupDay_bumpDay_self (m : List (String × Int)) (k : String) :
    lookupDay (bumpDay m k) k = lookupDay m k + 1 := by
  induction m with
  | nil => simp [bumpDay, lookupDay]
  | cons p rest ih =>
    rcases p with ⟨k', v⟩
    by_cases h : k' = k
    · simp [bumpDay, lookupDay, h]
    · simp [bumpDay, lookupDay, h, ih]

theorem lookupDay_bumpDay_other (m : List (String × Int)) (k k' : String)
    (h : k' ≠ k) : lookupDay (bumpDay m k) k' = lookupDay m k' := by
  induction m with
  | nil =>
    simp only [bumpDay, lookupDay]
    rw [if_neg (fun hh => h hh.symm)]
  | cons p rest ih =>
    rcases p with ⟨k'', v⟩
    by_cases h2 : k'' = k
    · subst h2
      simp only [bumpDay, if_pos rfl, lookupDay]
      rw [if_neg (fun hh => h hh.symm), if_neg (fun hh => h hh.symm)]
    · simp only [bumpDay, if_neg h2, lookupDay]
      by_cases h3 : k'' = k'
      · rw [if_pos h3, if_pos h3]
      · rw [if_neg h3, if_neg h3]
        exact ih

/-- C5. One streak transition at instant `now`, on a state with a prior
completion timestamp `last ≤ now`, computes `gapDays` as the floor of
`(now - last) / 24h`; leaves the streak unchanged at gap 0, increments it
(raising the maximum when exceeded) at gap 1, resets it to 1 leaving the
maximum unchanged at larger gaps; and always sets the last-completion
timestamp to `now`, increments the cumulative total, and increments today's
bucket of the per-day map, leaving every other bucket unchanged. -/
theorem streak_transition_spec (fmtDay : Int → String) (now last : Int)
    (s : Streak) (hlast : s.lastCompletedAt = some last) (hle : last ≤ now) :
    (Int.fdiv (now - last) nsPerDay = 0 →
      (updateStreakOnCompletion fmtDay now s).currentStreak = s.currentStreak ∧
      (updateStreakOnCompletion fmtDay now s).maxStreak = s.maxStreak) ∧
    (Int.fdiv (now - last) nsPerDay = 1 →
      (updateStreakOnCompletion fmtDay now s).currentStreak = s.currentStreak + 1 ∧
      (updateStreakOnCompletion fmtDay now s).maxStreak =
        (if s.currentStreak + 1 > s.maxStreak then s.currentStreak + 1
         else s.maxStreak)) ∧
    (1 < Int.fdiv (now - last) nsPerDay →
      (updateStreakOnCompletion fmtDay now s).currentStreak = 1 ∧
      (updateStreakOnCompletion fmtDay now s).maxStreak = s.maxStreak) ∧
    (updateStreakOnCompletion fmtDay now s).lastCompletedAt = some now ∧
    (updateStreakOnCompletion fmtDay now s).totalCompleted = s.totalCompleted + 1 ∧
    dailyCount (updateStreakOnCompletion fmtDay now s) (fmtDay now) =
      dailyCount s (fmtDay now) + 1 ∧
    (∀ k, k ≠ fmtDay now →
      dailyCount (updateStreakOnCompletion fmtDay now s) k = dailyCount s k) := by
  have hfd : Int.fdiv (now - last) nsPerDay = Int.tdiv (now - last) nsPerDay :=
    Int.fdiv_eq_tdiv (by omega) (by norm_num [nsPerDay])
  have hdaily : (updateStreakOnCompletion fmtDay now s).dailyCompletions =
      some (bumpDay (s.dailyCompletions.getD []) (fmtDay now)) := by
    unfold updateStreakOnCompletion
    rcases s.dailyCompletions with _ | m <;> simp
  refine ⟨?_, ?_, ?_, ?_, ?_, ?_, ?_⟩
  · intro hgap
    rw [hfd] at hgap
    simp [updateStreakOnCompletion, hlast, hgap]
  · intro hgap
    rw [hfd] at hgap
    simp [updateStreakOnCompletion, hlast, hgap]
  · intro hgap
    rw [hfd] at hgap
    simp only [updateStreakOnCompletion, hlast]
    rw [if_neg (by omega), if_neg (by omega)]
    exact ⟨rfl, rfl⟩
  · simp [updateStreakOnCompletion]
  · simp [updateStreakOnCompletion]
  · unfold dailyCount
    rw [hdaily]
    simp [lookupDay_bumpDay_self]
  · intro k hk
    unfold dailyCount
    rw [hdaily]
    simp [lookupDay_bumpDay_other _ _ _ hk]

/-- Closed instance of the gap-1 case of `streak_transition_spec`. -/
theorem streak_transition_spec_witness :
    ((1 : Int) ≤ nsPerDay) ∧
    (updateStreakOnCompletion (fun _ => "2025-01-02") nsPerDay
      { currentStreak := 1, maxStreak := 1, lastCompletedAt := some 0,
        totalCompleted := 1, dailyCompletions := some [("2025-01-01", 1)] }).currentStreak = 2 := by
  refine ⟨by norm_num [nsPerDay], ?_⟩
  have h := streak_transition_spec (fun _ => "2025-01-02") nsPerDay 0
    { currentStreak := 1, maxStreak := 1, lastCompletedAt := some 0,
      totalCompleted := 1, dailyCompletions := some [("2025-01-01", 1)] }
    rfl (by norm_num [nsPerDay])
  have h1 := h.2.1 (by norm_num [nsPerDay, Int.fdiv])
  rw [h1.1]
  norm_num

/-! ### Reachable streak states -/

/-- Streak states reachable from the zero-valued initial state by successive
completion transitions (at arbitrary instants). -/
inductive ReachableStreak (fmtDay : Int → String) : Streak → Prop
  | init : ReachableStreak fmtDay initialStreak
  | step (s : Streak) (now : Int) : ReachableStreak fmtDay s →
      ReachableStreak fmtDay (updateStreakOnCompletion fmtDay now s)

/-- The current/max streak pair computed by one transition (the `cm` value
inside `updateStreakOnCompletion`). -/
def nextCurMax (s : Streak) (now : Int) : Int × Int :=
  match s.lastCompletedAt with
  | some last =>
    if Int.tdiv (now - last) nsPerDay = 0 then
      (s.currentStreak, s.maxStreak)
    else if Int.tdiv (now - last) nsPerDay = 1 then
      (s.currentStreak + 1,
        if s.currentStreak + 1 > s.maxStreak then s.currentStreak + 1
        else s.maxStreak)
    else
      (1, s.maxStreak)
  | none =>
    (1, if s.maxStreak = 0 then 1 else s.maxStreak)

theorem updateStreak_eq (fmtDay : Int → String) (now : Int) (s : Streak) :
    updateStreakOnCompletion fmtDay now s =
      { currentStreak := (nextCurMax s now).1,
        maxStreak := (nextCurMax s now).2,
        lastCompletedAt := some now,
        totalCompleted := s.totalCompleted + 1,
        dailyCompletions :=
          some (bumpDay (s.dailyCompletions.getD []) (fmtDay now)) } := by
  unfold updateStreakOnCompletion nextCurMax
  rcases hd : s.dailyCompletions with _ | m <;> rfl

theorem nextCurMax_inv (s : Streak) (now : Int)
    (h0 : 0 ≤ s.currentStreak) (hcm : s.currentStreak ≤ s.maxStreak)
    (hsome : s.lastCompletedAt.isSome = true →
      1 ≤ s.currentStreak ∧ 1 ≤ s.maxStreak) :
    1 ≤ (nextCurMax s now).1 ∧ (nextCurMax s now).1 ≤ (nextCurMax s now).2 := by
  unfold nextCurMax
  rcases hl : s.lastCompletedAt with _ | last
  · dsimp only
    split <;> omega
  · have hs1 := hsome (by simp [hl])
    dsimp only
    by_cases hg0 : Int.tdiv (now - last) nsPerDay = 0
    · rw [if_pos hg0]
      dsimp only
      omega
    · rw [if_neg hg0]
      by_cases hg1 : Int.tdiv (now - last) nsPerDay = 1
      · rw [if_pos hg1]
        dsimp only
        split <;> omega
      · rw [if_neg hg1]
        dsimp only
        omega

theorem streak_inv_aux (fmtDay : Int → String) (s : Streak)
    (h : ReachableStreak fmtDay s) :
    0 ≤ s.currentStreak ∧ s.currentStreak ≤ s.maxStreak ∧
      (s.lastCompletedAt.isSome = true →
        1 ≤ s.currentStreak ∧ 1 ≤ s.maxStreak) := by
  induction h with
  | init => simp [initialStreak]
  | step s now _ ih =>
    rcases ih with ⟨h0, hcm, hsome⟩
    obtain ⟨hna, hnb⟩ := nextCurMax_inv s now h0 hcm hsome
    rw [updateStreak_eq]
    refine ⟨by dsimp only; omega, by dsimp only; omega, fun _ => ?_⟩
    dsimp only
    omega

/-- C9. Every streak state reachable from the zero-valued initial state
satisfies `maxStreak ≥ currentStreak ≥ 0`, and every transition increments
the cumulative total by exactly one, so the total is monotonically
non-decreasing along the state machine's history. -/
theorem streak_reachable_invariant (fmtDay : Int → String) (s : Streak)
    (h : ReachableStreak fmtDay s) :
    (0 ≤ s.currentStreak ∧ s.currentStreak ≤ s.maxStreak) ∧
    (∀ now, (updateStreakOnCompletion fmtDay now s).totalCompleted =
      s.totalCompleted + 1) := by
  have := streak_inv_aux fmtDay s h
  exact ⟨⟨this.1, this.2.1⟩, fun now => by simp [updateStreakOnCompletion]⟩

/-- Closed instance of `streak_reachable_invariant` one transition in. -/
theorem streak_reachable_invariant_witness :
    (0 ≤ (updateStreakOnCompletion (fun _ => "1970-01-01") 0 initialStreak).currentStreak ∧
      (updateStreakOnCompletion (fun _ => "1970-01-01") 0 initialStreak).currentStreak ≤
        (updateStreakOnCompletion (fun _ => "1970-01-01") 0 initialStreak).maxStreak) ∧
    (∀ now,
      (updateStreakOnCompletion (fun _ => "1970-01-01") now
        (updateStreakOnCompletion (fun _ => "1970-01-01") 0 initialStreak)).totalCompleted =
      (updateStreakOnCompletion (fun _ => "1970-01-01") 0 initialStreak).totalCompleted + 1) :=
  streak_reachable_invariant (fun _ => "1970-01-01") _
    (ReachableStreak.step initialStreak 0 ReachableStreak.init)

/-! ## UpdateTodo and the streak transition trigger (storage.go lines 149-176) -/

/-- The store state visible to `UpdateTodo`: the todo bucket (an association
of ids to records) and the persisted streak state. -/
structure Store where
  todos : List (String × Todo)
  streak : Streak
deriving Repr, DecidableEq

/-- Embedding of the `GetTodo` lookup (storage.go lines 83-99), restricted to its pure part. -/
def getTodoRec : List (String × Todo) → String → Option Todo
  | [], _ => none
  | (k, t) :: rest, id => if k = id then some t else getTodoRec rest id

/-- bbolt `Put`: insert or replace the record stored under a key. -/
def putTodoRec : List (String × Todo) → String → Todo → List (String × Todo)
  | [], k, t => [(k, t)]
  | (k', t') :: rest, k, t =>
    if k' = k then (k, t) :: rest else (k', t') :: putTodoRec rest k t

/-- Embedding of `UpdateTodo` (storage.go lines 149-176). `putFails` models whether the
bbolt `db.Update` transaction returns an error (in which case the write is
rolled back); the code then runs `updateStreakOnCompletion` exactly when
`err != nil && !wasCompleted && todo.Completed`, ignoring its result.
Returns the new store and the returned error flag. -/
def UpdateTodo (fmtDay : Int → String) (now : Int) (putFails : Bool)
    (st : Store) (todo : Todo) : Store × Bool :=
  let wasCompleted :=
    match getTodoRec st.todos todo.id with
    | some existingTodo => existingTodo.completed
    | none => false
  let st1 :=
    if putFails then st
    else { st with todos := putTodoRec st.todos todo.id { todo with updatedAt := now } }
  let st2 :=
    if putFails ∧ wasCompleted = false ∧ todo.completed then
      { st1 with streak := updateStreakOnCompletion fmtDay now st1.streak }
    else st1
  (st2, putFails)

def c1Todo : Todo :=
  { id := "t1", title := "task", description := "", deadline := none,
    completed := false, completedAt := none, createdAt := 0, updatedAt := 0 }

def c1TodoDone : Todo :=
  { c1Todo with completed := true, completedAt := some 100, updatedAt := 100 }

def c1Store : Store :=
  { todos := [("t1", c1Todo)], streak := initialStreak }

/-- C1. Evaluating `UpdateTodo` at a successful persist of an
incomplete-to-complete flip: the stored record is updated, yet the streak
transition is not applied (total stays 0), because the code guards the
streak update with `err != nil`; symmetrically, when the persist fails the
transition IS applied. This contradicts the specification, which demands
the transition exactly once on a successfully persisted completion flip. -/
theorem updateTodo_streak_not_fired_on_success :
    (UpdateTodo (fun _ => "1970-01-01") 100 false c1Store c1TodoDone).1.streak
        = initialStreak ∧
    getTodoRec (UpdateTodo (fun _ => "1970-01-01") 100 false c1Store c1TodoDone).1.todos "t1"
        = some { c1TodoDone with updatedAt := 100 } ∧
    (UpdateTodo (fun _ => "1970-01-01") 100 true c1Store c1TodoDone).1.streak.totalCompleted
        = 1 := by
  refine ⟨rfl, rfl, rfl⟩

/-! ## Deadline parser (utils package: ParseDeadline, parseRelativeTime,
parseTimeUnit) -/

/-- Parser error values, one constructor per `fmt.Errorf` site of the Go
parser. `invalidFormat` is the composed error of `ParseDeadline` that wraps
the relative parser's error when absolute parsing also failed. -/
inductive ParseErr where
  | emptyInput
  | invalidNumber (s : String)
  | nonPositiveMonth
  | noValidUnits
  | invalidCharacters
  | nonPositiveValue
  | invalidUnit (s : String)
  | nonPositiveTotal
  | invalidFormat (inner : ParseErr)
deriving Repr, DecidableEq

/-- Model of `strings.ToLower`, restricted to ASCII (the only characters the parser
distinguishes). -/
def toLowerChar (c : Char) : Char :=
  if 'A' ≤ c ∧ c ≤ 'Z' then Char.ofNat (c.toNat + 32) else c

def toLowerStr (l : List Char) : List Char := l.map toLowerChar

/-- Model of `monthRegex.FindAllStringSubmatch`: the digit-run captures of every
leftmost-longest match of `(\d+)M` (case-sensitive capital M), modelled as a
single scan carrying the pending digit run. -/
def scanMonthsAux (cur : List Char) : List Char → List (List Char)
  | [] => []
  | c :: rest =>
    if c.isDigit then scanMonthsAux (cur ++ [c]) rest
    else if c = 'M' ∧ cur ≠ [] then cur :: scanMonthsAux [] rest
    else scanMonthsAux [] rest

def scanMonths (l : List Char) : List (List Char) := scanMonthsAux [] l

/-- Model of `monthRegex.ReplaceAllString(input, "")`: the input with every
`(\d+)M` match span removed. -/
def stripMonthsAux (cur : List Char) : List Char → List Char
  | [] => cur
  | c :: rest =>
    if c.isDigit then stripMonthsAux (cur ++ [c]) rest
    else if c = 'M' ∧ cur ≠ [] then stripMonthsAux [] rest
    else cur ++ c :: stripMonthsAux [] rest

def stripMonths (l : List Char) : List Char := stripMonthsAux [] l

def isUnitChar (c : Char) : Bool := c = 'm' || c = 'h' || c = 'd' || c = 'w'

/-- Model of `unitRegex.FindAllStringSubmatch`: the (digit-run, unit-letter) captures
of every leftmost-longest match of `(\d+)([mhdw])`. -/
def scanUnitsAux (cur : List Char) : List Char → List (List Char × Char)
  | [] => []
  | c :: rest =>
    if c.isDigit then scanUnitsAux (cur ++ [c]) rest
    else if isUnitChar c ∧ cur ≠ [] then (cur, c) :: scanUnitsAux [] rest
    else scanUnitsAux [] rest

def scanUnits (l : List Char) : List (List Char × Char) := scanUnitsAux [] l

/-- Model of `strconv.Atoi` on a captured digit run (the captures are all-digit, so
the conversion cannot fail; integer overflow is outside the model). -/
def digitsToNat (ds : List Char) : Nat :=
  ds.foldl (fun acc c => 10 * acc + (c.toNat - '0'.toNat)) 0

/-- Model of `strings.Replace(s, old, new, 1)`: replace the first occurrence. -/
def replaceFirst : List Char → List Char → List Char → List Char
  | [], _, _ => []
  | c :: rest, pat, rep =>
    if pat.isPrefixOf (c :: rest) then rep ++ (c :: rest).drop pat.length
    else c :: replaceFirst rest pat rep

/-- Embedding of `parseTimeUnit` (the duration-unit resolver): minutes, hours, days
(24h), weeks (7d); any other unit code is `invalidUnit`. -/
def parseTimeUnit (value : Nat) (unit : Char) : Except ParseErr Int :=
  if unit = 'm' then .ok ((value : Int) * nsPerMinute)
  else if unit = 'h' then .ok ((value : Int) * nsPerHour)
  else if unit = 'd' then .ok ((value : Int) * nsPerDay)
  else if unit = 'w' then .ok ((value : Int) * nsPerWeek)
  else .error (.invalidUnit (String.mk [unit]))

/-- The month-extraction loop of `parseRelativeTime`: sum the magnitudes of
the month captures, failing on a non-positive magnitude. -/
def sumMonths : List (List Char) → Except ParseErr Nat
  | [] => .ok 0
  | ds :: rest =>
    let value := digitsToNat ds
    if value ≤ 0 then .error .nonPositiveMonth
    else
      match sumMonths rest with
      | .ok m => .ok (value + m)
      | .error e => .error e

/-- The unit-accumulation loop of `parseRelativeTime`: parse each magnitude
(positive), resolve it through `parseTimeUnit`, and accumulate. -/
def sumUnits : List (List Char × Char) → Except ParseErr Int
  | [] => .ok 0
  | (ds, u) :: rest =>
    let value := digitsToNat ds
    if value ≤ 0 then .error .nonPositiveValue
    else
      match parseTimeUnit value u with
      | .error e => .error e
      | .ok d =>
        match sumUnits rest with
        | .ok t => .ok (d + t)
        | .error e => .error e

/-- Embedding of `parseRelativeTime` (utils, lines 39-117). `addMonths k` stands for the
calendar difference `now.AddDate(0, k, 0).Sub(now)` that the code computes
from the wall clock sampled at the call instant. -/
def parseRelativeTime (addMonths : Nat → Int) (input : String) :
    Except ParseErr Int :=
  let originalInput := input.data
  let monthMatches := scanMonths originalInput
  match sumMonths monthMatches with
  | .error e => .error e
  | .ok months =>
    let processedInput := toLowerStr (stripMonths originalInput)
    let unitMatches := scanUnits processedInput
    if unitMatches.length = 0 ∧ months = 0 then .error .noValidUnits
    else
      let reconstructed :=
        (unitMatches.map (fun m => m.1 ++ [m.2])).flatten ++ List.replicate months 'M'
      let inputNoSpace0 :=
        toLowerStr (originalInput.filter (fun c => !(c = ' ' || c = '\x09')))
      let inputNoSpace := monthMatches.foldl
        (fun s ds => replaceFirst s (toLowerStr (ds ++ ['M'])) ['M']) inputNoSpace0
      if (toLowerStr reconstructed).length ≠ inputNoSpace.length then
        .error .invalidCharacters
      else
        match sumUnits unitMatches with
        | .error e => .error e
        | .ok totalInit =>
          let totalDuration :=
            if months > 0 then totalInit + addMonths months else totalInit
          if totalDuration ≤ 0 ∧ months = 0 then .error .nonPositiveTotal
          else .ok totalDuration

/-- Local broken-down time, the result of parsing the absolute layout. -/
structure DateTime where
  year : Nat
  month : Nat
  day : Nat
  hour : Nat
  minute : Nat
deriving Repr, DecidableEq

def isLeapYear (y : Nat) : Bool := (y % 4 = 0 && y % 100 ≠ 0) || y % 400 = 0

def daysInMonth (y m : Nat) : Nat :=
  if m = 2 then (if isLeapYear y then 29 else 28)
  else if m = 4 ∨ m = 6 ∨ m = 9 ∨ m = 11 then 30
  else 31

def digitVal (c : Char) : Nat := c.toNat - '0'.toNat

/-- Model of `time.ParseInLocation("2006-01-02 15:04", input, time.Local)`: the fixed
layout with zero-padded fields, full input consumption, and Go's range
validation of month, day (against the month length), hour and minute. -/
def parseAbsolute (s : String) : Option DateTime :=
  match s.data with
  | [y1, y2, y3, y4, s1, m1, m2, s2, d1, d2, s3, h1, h2, s4, n1, n2] =>
    if y1.isDigit && y2.isDigit && y3.isDigit && y4.isDigit && s1 = '-' &&
        m1.isDigit && m2.isDigit && s2 = '-' && d1.isDigit && d2.isDigit &&
        s3 = ' ' && h1.isDigit && h2.isDigit && s4 = ':' &&
        n1.isDigit && n2.isDigit then
      let y := 1000 * digitVal y1 + 100 * digitVal y2 + 10 * digitVal y3 + digitVal y4
      let mo := 10 * digitVal m1 + digitVal m2
      let d := 10 * digitVal d1 + digitVal d2
      let h := 10 * digitVal h1 + digitVal h2
      let mi := 10 * digitVal n1 + digitVal n2
      if 1 ≤ mo ∧ mo ≤ 12 ∧ 1 ≤ d ∧ d ≤ daysInMonth y mo ∧ h ≤ 23 ∧ mi ≤ 59 then
        some ⟨y, mo, d, h, mi⟩
      else none
    else none
  | _ => none

/-- Model of `strings.TrimSpace`. -/
def trimSpace (l : List Char) : List Char :=
  ((l.dropWhile Char.isWhitespace).reverse.dropWhile Char.isWhitespace).reverse

/-- The result of `ParseDeadline`: either the absolute local timestamp
parsed from the fixed layout, or `now + duration` for a relative expression
(carried as the duration, since `now` is sampled at the call instant). -/
inductive Deadline where
  | absolute (dt : DateTime)
  | relative (d : Int)
deriving Repr, DecidableEq

/-- Embedding of `ParseDeadline` (utils, lines 20-37): trim; reject empty input; try the
absolute layout; otherwise delegate to the relative parser, wrapping its
error in the composed `invalidFormat` error. -/
def ParseDeadline (addMonths : Nat → Int) (input : String) :
    Except ParseErr Deadline :=
  let trimmed := String.mk (trimSpace input.data)
  if trimmed = "" then .error .emptyInput
  else
    match parseAbsolute trimmed with
    | some t => .ok (.absolute t)
    | none =>
      match parseRelativeTime addMonths trimmed with
      | .ok duration => .ok (.relative duration)
      | .error e => .error (.invalidFormat e)

/-- C7. Error classification of malformed deadline strings: empty and
whitespace-only input fail with `emptyInput` at the resolver boundary;
"5x", "d" and "tomorrow" yield `noValidUnits`; "-2d", "2d 3x", "2d+3h" and
"1.5h" yield `invalidCharacters` through the length-based coverage check;
and "0d" yields `nonPositiveValue`. -/
theorem parser_error_classification (addMonths : Nat → Int) :
    ParseDeadline addMonths "" = .error .emptyInput ∧
    ParseDeadline addMonths "   " = .error .emptyInput ∧
    parseRelativeTime addMonths "5x" = .error .noValidUnits ∧
    parseRelativeTime addMonths "d" = .error .noValidUnits ∧
    parseRelativeTime addMonths "tomorrow" = .error .noValidUnits ∧
    parseRelativeTime addMonths "-2d" = .error .invalidCharacters ∧
    parseRelativeTime addMonths "2d 3x" = .error .invalidCharacters ∧
    parseRelativeTime addMonths "2d+3h" = .error .invalidCharacters ∧
    parseRelativeTime addMonths "1.5h" = .error .invalidCharacters ∧
    parseRelativeTime addMonths "0d" = .error .nonPositiveValue := by
  refine ⟨rfl, rfl, rfl, rfl, rfl, rfl, rfl, rfl, rfl, rfl⟩

/-! ### Month-token facts (C2, C8) -/

theorem toLowerChar_digit (c : Char) (h : c.isDigit = true) :
    toLowerChar c = c := by
  unfold toLowerChar
  rw [if_neg]
  intro ⟨h1, h2⟩
  simp [Char.isDigit] at h
  simp [Char.le_def] at h1 h2
  exact absurd (UInt32.le_trans h1 h.2) (by decide)

theorem toLowerStr_digits (ds : List Char)
    (h : ∀ c ∈ ds, c.isDigit = true) : toLowerStr ds = ds := by
  induction ds with
  | nil => rfl
  | cons c rest ih =>
    simp only [toLowerStr, List.map_cons]
    rw [toLowerChar_digit c (h c (by simp)),
      show List.map toLowerChar rest = toLowerStr rest from rfl,
      ih (fun x hx => h x (by simp [hx]))]

theorem digit_not_space_tab (c : Char) (h : c.isDigit = true) :
    (!(c = ' ' || c = '\x09')) = true := by
  simp [Char.isDigit] at h
  simp only [Bool.not_eq_true', Bool.or_eq_false_iff, decide_eq_false_iff_not]
  constructor <;> rintro rfl <;> simp_all

theorem scanMonthsAux_digits (ds : List Char) (rest : List Char)
    (h : ∀ c ∈ ds, c.isDigit = true) :
    ∀ cur, scanMonthsAux cur (ds ++ rest) = scanMonthsAux (cur ++ ds) rest := by
  induction ds with
  | nil => intro cur; simp
  | cons c ds ih =>
    intro cur
    have hc := h c (by simp)
    simp only [List.cons_append, scanMonthsAux, hc, if_pos, List.append_eq]
    rw [ih (fun x hx => h x (by simp [hx])) (cur ++ [c])]
    simp

theorem stripMonthsAux_digits (ds : List Char) (rest : List Char)
    (h : ∀ c ∈ ds, c.isDigit = true) :
    ∀ cur, stripMonthsAux cur (ds ++ rest) = stripMonthsAux (cur ++ ds) rest := by
  induction ds with
  | nil => intro cur; simp
  | cons c ds ih =>
    intro cur
    have hc := h c (by simp)
    simp only [List.cons_append, stripMonthsAux, hc, if_pos, List.append_eq]
    rw [ih (fun x hx => h x (by simp [hx])) (cur ++ [c])]
    simp

theorem scanMonths_single (ds : List Char) (hne : ds ≠ [])
    (hdig : ∀ c ∈ ds, c.isDigit = true) :
    scanMonths (ds ++ ['M']) = [ds] := by
  unfold scanMonths
  rw [scanMonthsAux_digits ds ['M'] hdig []]
  simp only [List.nil_append, scanMonthsAux]
  rw [if_neg (by decide), if_pos ⟨trivial, hne⟩]

theorem stripMonths_single (ds : List Char) (hne : ds ≠ [])
    (hdig : ∀ c ∈ ds, c.isDigit = true) :
    stripMonths (ds ++ ['M']) = [] := by
  unfold stripMonths
  rw [stripMonthsAux_digits ds ['M'] hdig []]
  simp only [List.nil_append, stripMonthsAux]
  rw [if_neg (by decide), if_pos ⟨trivial, hne⟩]

theorem replaceFirst_self (l rep : List Char) (hne : l ≠ []) :
    replaceFirst l l rep = rep := by
  cases l with
  | nil => exact absurd rfl hne
  | cons c rest =>
    simp only [replaceFirst]
    rw [if_pos (by simp [ List.isPrefixOf_iff_prefix]), List.drop_length,
      List.append_nil]
/-- The coverage check rejects every single month token `<digits>M` whose
magnitude is at least 2: the reconstruction holds one `M` marker per unit of
the month count while the stripped input holds one per token. -/
theorem monthToken_k_ge_2 (addMonths : Nat → Int) (ds : List Char)
    (hne : ds ≠ []) (hdig : ∀ c ∈ ds, c.isDigit = true)
    (hk : 2 ≤ digitsToNat ds) :
    parseRelativeTime addMonths (String.mk (ds ++ ['M'])) =
      .error .invalidCharacters := by
  unfold parseRelativeTime
  simp only
  rw [scanMonths_single ds hne hdig, stripMonths_single ds hne hdig]
  have hsm : sumMonths [ds] = .ok (digitsToNat ds + 0) := by
    unfold sumMonths
    rw [if_neg (by omega)]
    rfl
  rw [hsm]
  have hfilter : List.filter (fun c => !(decide (c = ' ') || decide (c = '\x09'))) (ds ++ ['M'])
      = ds ++ ['M'] := by
    rw [List.filter_eq_self]
    intro a ha
    rcases List.mem_append.mp ha with ha | ha
    · exact digit_not_space_tab a (hdig a ha)
    · simp at ha
      subst ha
      decide
  rw [hfilter]
  have hlow : toLowerStr (ds ++ ['M']) = ds ++ ['m'] := by
    unfold toLowerStr
    rw [List.map_append, show List.map toLowerChar ds = toLowerStr ds from rfl,
      toLowerStr_digits ds hdig]
    rfl
  rw [hlow]
  rw [show toLowerStr ([] : List Char) = [] from rfl]
  rw [show scanUnits ([] : List Char) = [] from rfl]
  dsimp only
  rw [if_neg (show ¬ (List.length ([] : List (List Char × Char)) = 0 ∧
    digitsToNat ds + 0 = 0) by simp; omega)]
  have hfold : (List.foldl (fun s ds => replaceFirst s (toLowerStr (ds ++ ['M'])) ['M'])
      (ds ++ ['m']) [ds]) = ['M'] := by
    rw [List.foldl_cons, List.foldl_nil, hlow, replaceFirst_self _ _ (by simp)]
  rw [hfold]
  have hrec : (toLowerStr ((List.map (fun (m : List Char × Char) => m.1 ++ [m.2]) []).flatten
      ++ List.replicate (digitsToNat ds + 0) 'M')).length = digitsToNat ds + 0 := by
    unfold toLowerStr
    rw [List.length_map]
    simp
  rw [if_pos (by rw [hrec]; simp; omega)]

/-- C2 fails as stated: the single month token "2M" (k = 2) is rejected with
`invalidCharacters` by the coverage check instead of being accepted. -/
theorem monthToken_counterexample :
    parseRelativeTime (fun k => (k : Int) * 2592000000000000) "2M" =
      .error .invalidCharacters := rfl

/-- C2, amended. A single month token `<digits>M` is accepted only for
magnitude 1: any magnitude of at least 2 fails the coverage check with
`invalidCharacters`; "1M" itself yields exactly the calendar difference
`now.AddDate(0, 1, 0) - now`, and the same month contribution is added when
the token is combined with valid unit tokens ("1M 2d"). -/
theorem monthToken_amended (addMonths : Nat → Int) (ds : List Char)
    (hne : ds ≠ []) (hdig : ∀ c ∈ ds, c.isDigit = true)
    (hk : 2 ≤ digitsToNat ds) :
    parseRelativeTime addMonths (String.mk (ds ++ ['M'])) =
      .error .invalidCharacters ∧
    parseRelativeTime addMonths "1M" = .ok (addMonths 1) ∧
    parseRelativeTime addMonths "1M 2d" = .ok (2 * nsPerDay + addMonths 1) := by
  refine ⟨monthToken_k_ge_2 addMonths ds hne hdig hk, ?_, ?_⟩
  · have e1 : parseRelativeTime addMonths "1M" =
        (if (0 : Int) + addMonths 1 ≤ 0 ∧ (1 : Nat) = 0 then
          Except.error ParseErr.nonPositiveTotal
        else Except.ok ((0 : Int) + addMonths 1)) := rfl
    rw [e1, if_neg (fun h => absurd h.2 (by decide))]
    rw [zero_add]
  · have e1 : parseRelativeTime addMonths "1M 2d" =
        (if ((2 : Int) * nsPerDay + 0) + addMonths 1 ≤ 0 ∧ (1 : Nat) = 0 then
          Except.error ParseErr.nonPositiveTotal
        else Except.ok (((2 : Int) * nsPerDay + 0) + addMonths 1)) := rfl
    rw [e1, if_neg (fun h => absurd h.2 (by decide))]
    rw [add_zero]

/-- Closed instance of `monthToken_amended` at ds = "2" with a 30-day
calendar month. -/
theorem monthToken_amended_witness :
    ((['2'] : List Char) ≠ [] ∧ (∀ c ∈ (['2'] : List Char), c.isDigit = true) ∧
      2 ≤ digitsToNat ['2']) ∧
    (parseRelativeTime (fun k => (k : Int) * 2592000000000000)
        (String.mk (['2'] ++ ['M'])) = .error .invalidCharacters ∧
      parseRelativeTime (fun k => (k : Int) * 2592000000000000) "1M" =
        .ok 2592000000000000 ∧
      parseRelativeTime (fun k => (k : Int) * 2592000000000000) "1M 2d" =
        .ok (2 * nsPerDay + 2592000000000000)) :=
  ⟨⟨by decide, by decide, by decide⟩,
    monthToken_amended (fun k => (k : Int) * 2592000000000000) ['2']
      (by decide) (by decide) (by decide)⟩

theorem scanUnitsAux_digits (ds : List Char) (rest : List Char)
    (h : ∀ c ∈ ds, c.isDigit = true) :
    ∀ cur, scanUnitsAux cur (ds ++ rest) = scanUnitsAux (cur ++ ds) rest := by
  induction ds with
  | nil => intro cur; simp
  | cons c ds ih =>
    intro cur
    have hc := h c (by simp)
    simp only [List.cons_append, scanUnitsAux, hc, if_pos, List.append_eq]
    rw [ih (fun x hx => h x (by simp [hx])) (cur ++ [c])]
    simp

theorem scanMonths_lower (ds : List Char)
    (hdig : ∀ c ∈ ds, c.isDigit = true) :
    scanMonths (ds ++ ['m']) = [] := by
  unfold scanMonths
  rw [scanMonthsAux_digits ds ['m'] hdig []]
  simp only [List.nil_append, scanMonthsAux]
  rw [if_neg (by decide), if_neg (by simp)]

theorem stripMonths_lower (ds : List Char)
    (hdig : ∀ c ∈ ds, c.isDigit = true) :
    stripMonths (ds ++ ['m']) = ds ++ ['m'] := by
  unfold stripMonths
  rw [stripMonthsAux_digits ds ['m'] hdig []]
  simp only [List.nil_append, stripMonthsAux]
  rw [if_neg (by decide), if_neg (by simp)]

theorem scanUnits_lower (ds : List Char) (hne : ds ≠ [])
    (hdig : ∀ c ∈ ds, c.isDigit = true) :
    scanUnits (ds ++ ['m']) = [(ds, 'm')] := by
  unfold scanUnits
  rw [scanUnitsAux_digits ds ['m'] hdig []]
  simp only [List.nil_append, scanUnitsAux]
  rw [if_neg (by decide), if_pos ⟨by decide, hne⟩]

/-- Every lowercase minute token `<digits>m` of positive magnitude parses as
that many minutes (the month regex only matches the capital marker). -/
theorem minuteToken_general (addMonths : Nat → Int) (ds : List Char)
    (hne : ds ≠ []) (hdig : ∀ c ∈ ds, c.isDigit = true)
    (hk : 1 ≤ digitsToNat ds) :
    parseRelativeTime addMonths (String.mk (ds ++ ['m'])) =
      .ok ((digitsToNat ds : Int) * nsPerMinute) := by
  unfold parseRelativeTime
  simp only
  rw [scanMonths_lower ds hdig, stripMonths_lower ds hdig]
  rw [show sumMonths [] = Except.ok 0 from rfl]
  have hlow : toLowerStr (ds ++ ['m']) = ds ++ ['m'] := by
    unfold toLowerStr
    rw [List.map_append, show List.map toLowerChar ds = toLowerStr ds from rfl,
      toLowerStr_digits ds hdig]
    rfl
  rw [hlow, scanUnits_lower ds hne hdig]
  dsimp only
  rw [if_neg (by simp)]
  have hfilter : List.filter (fun c => !(decide (c = ' ') || decide (c = '\x09'))) (ds ++ ['m'])
      = ds ++ ['m'] := by
    rw [List.filter_eq_self]
    intro a ha
    rcases List.mem_append.mp ha with ha | ha
    · exact digit_not_space_tab a (hdig a ha)
    · simp at ha
      subst ha
      decide
  rw [hfilter, hlow]
  rw [if_neg (by simp [toLowerStr])]
  have hsu : sumUnits [(ds, 'm')] =
      .ok ((digitsToNat ds : Int) * nsPerMinute + 0) := by
    unfold sumUnits
    rw [if_neg (by omega)]
    rfl
  rw [hsu]
  dsimp only
  rw [if_neg (by
    have h1 : (1 : Int) ≤ (digitsToNat ds : Int) := by exact_mod_cast hk
    simp only [nsPerMinute]
    omega)]
  rw [add_zero, if_neg (by omega)]

/-- C8 fails as stated: with a 30-day calendar month, "1m" parses as one
minute while "1M" parses as one calendar month — the month marker is
case-sensitive, not case-insensitive. -/
theorem monthMarker_case_counterexample :
    parseRelativeTime (fun k => (k : Int) * 2592000000000000) "1m" =
      .ok 60000000000 ∧
    parseRelativeTime (fun k => (k : Int) * 2592000000000000) "1M" =
      .ok 2592000000000000 ∧
    parseRelativeTime (fun k => (k : Int) * 2592000000000000) "1m" ≠
      parseRelativeTime (fun k => (k : Int) * 2592000000000000) "1M" :=
  ⟨rfl, rfl, fun h => absurd (Except.ok.inj h) (by decide)⟩

/-- C8, amended: the month marker is case-sensitive — capital `M` denotes
calendar months while lowercase `m` is the minutes unit. For every positive
n (given by its digit run), "nm" parses as n minutes, not as n calendar
months; in particular "1m" yields one minute while "1M" yields
`now.AddDate(0, 1, 0) - now`. -/
theorem monthMarker_case_amended (addMonths : Nat → Int) (ds : List Char)
    (hne : ds ≠ []) (hdig : ∀ c ∈ ds, c.isDigit = true)
    (hk : 1 ≤ digitsToNat ds) :
    parseRelativeTime addMonths (String.mk (ds ++ ['m'])) =
      .ok ((digitsToNat ds : Int) * nsPerMinute) ∧
    parseRelativeTime addMonths "1m" = .ok nsPerMinute ∧
    parseRelativeTime addMonths "1M" = .ok (addMonths 1) := by
  refine ⟨minuteToken_general addMonths ds hne hdig hk, rfl, ?_⟩
  have e1 : parseRelativeTime addMonths "1M" =
      (if (0 : Int) + addMonths 1 ≤ 0 ∧ (1 : Nat) = 0 then
        Except.error ParseErr.nonPositiveTotal
      else Except.ok ((0 : Int) + addMonths 1)) := rfl
  rw [e1, if_neg (fun h => absurd h.2 (by decide))]
  rw [zero_add]

/-- Closed instance of `monthMarker_case_amended` at ds = "12" with a 30-day
calendar month. -/
theorem monthMarker_case_amended_witness :
    ((['1', '2'] : List Char) ≠ [] ∧
      (∀ c ∈ (['1', '2'] : List Char), c.isDigit = true) ∧
      1 ≤ digitsToNat ['1', '2']) ∧
    (parseRelativeTime (fun k => (k : Int) * 2592000000000000)
        (String.mk (['1', '2'] ++ ['m'])) = .ok (12 * nsPerMinute) ∧
      parseRelativeTime (fun k => (k : Int) * 2592000000000000) "1m" =
        .ok nsPerMinute ∧
      parseRelativeTime (fun k => (k : Int) * 2592000000000000) "1M" =
        .ok 2592000000000000) :=
  ⟨⟨by decide, by decide, by decide⟩,
    monthMarker_case_amended (fun k => (k : Int) * 2592000000000000)
      ['1', '2'] (by decide) (by decide) (by decide)⟩

/-! ### Days until deadline (C10) -/

theorem tdiv_nsPerDay_cases (a : Int) :
    Int.tdiv a nsPerDay =
      if 0 ≤ a then a / nsPerDay else -((-a) / nsPerDay) := by
  by_cases h : 0 ≤ a
  · rw [if_pos h, Int.tdiv_eq_ediv h (by norm_num [nsPerDay])]
  · rw [if_neg h, show a = -(-a) by ring, Int.neg_tdiv, Int.neg_neg,
      Int.tdiv_eq_ediv (by omega) (by norm_num [nsPerDay])]

/-- C10. `DaysUntilDeadline` returns -1 when no deadline is set, and
otherwise the count of whole 24h periods until the deadline truncated
toward zero — so any deadline less than 24h away, future or past, yields 0,
and a task overdue by at least 24h and less than 48h yields -1, the same
value as the no-deadline sentinel. -/
theorem daysUntilDeadline_spec (now : Int) (t : Todo) :
    (t.deadline = none → DaysUntilDeadline now t = -1) ∧
    (∀ d, t.deadline = some d →
      DaysUntilDeadline now t = Int.tdiv (d - now) nsPerDay ∧
      (-nsPerDay < d - now ∧ d - now < nsPerDay →
        DaysUntilDeadline now t = 0) ∧
      (-(2 * nsPerDay) < d - now ∧ d - now ≤ -nsPerDay →
        DaysUntilDeadline now t = -1)) := by
  constructor
  · intro h
    simp [DaysUntilDeadline, h]
  · intro d hd
    have heq : DaysUntilDeadline now t = Int.tdiv (d - now) nsPerDay := by
      simp [DaysUntilDeadline, hd]
    refine ⟨heq, ?_, ?_⟩
    · intro ⟨h1, h2⟩
      rw [heq, tdiv_nsPerDay_cases]
      split
      · simp only [nsPerDay] at h1 h2 ⊢
        omega
      · simp only [nsPerDay] at h1 h2 ⊢
        omega
    · intro ⟨h1, h2⟩
      rw [heq, tdiv_nsPerDay_cases]
      split
      · simp only [nsPerDay] at h1 h2 ⊢
        omega
      · simp only [nsPerDay] at h1 h2 ⊢
        omega

/-! ### Absolute layout round-trip (C6) -/

def digitChar (n : Nat) : Char := Char.ofNat ('0'.toNat + n)

/-- The exact `YYYY-MM-DD HH:MM` layout rendering of a broken-down local
time: four-digit year, zero-padded two-digit fields, one space, 24h clock. -/
def renderLayout (dt : DateTime) : String :=
  String.mk [digitChar (dt.year / 1000), digitChar (dt.year / 100 % 10),
    digitChar (dt.year / 10 % 10), digitChar (dt.year % 10), '-',
    digitChar (dt.month / 10), digitChar (dt.month % 10), '-',
    digitChar (dt.day / 10), digitChar (dt.day % 10), ' ',
    digitChar (dt.hour / 10), digitChar (dt.hour % 10), ':',
    digitChar (dt.minute / 10), digitChar (dt.minute % 10)]

/-- In-range broken-down time: exactly the fields Go's time parser accepts
for this layout. -/
def validDateTime (dt : DateTime) : Prop :=
  dt.year < 10000 ∧ 1 ≤ dt.month ∧ dt.month ≤ 12 ∧ 1 ≤ dt.day ∧
  dt.day ≤ daysInMonth dt.year dt.month ∧ dt.hour ≤ 23 ∧ dt.minute ≤ 59

theorem digitChar_isDigit (n : Nat) (h : n ≤ 9) :
    (digitChar n).isDigit = true := by
  interval_cases n <;> decide

theorem digitChar_not_ws (n : Nat) (h : n ≤ 9) :
    (digitChar n).isWhitespace = false := by
  interval_cases n <;> decide

theorem digitVal_digitChar (n : Nat) (h : n ≤ 9) :
    digitVal (digitChar n) = n := by
  interval_cases n <;> decide

theorem dropWhile_cons_false {p : Char → Bool} {c : Char} {l : List Char}
    (h : p c = false) : List.dropWhile p (c :: l) = c :: l := by
  simp [List.dropWhile, h]

theorem trimSpace_eq_self (c d : Char) (mid : List Char)
    (hc : c.isWhitespace = false) (hd : d.isWhitespace = false) :
    trimSpace (c :: (mid ++ [d])) = c :: (mid ++ [d]) := by
  unfold trimSpace
  rw [dropWhile_cons_false hc,
    show (c :: (mid ++ [d])).reverse = d :: (mid.reverse ++ [c]) by simp,
    dropWhile_cons_false hd]
  simp

theorem parseAbsolute_render (dt : DateTime) (h : validDateTime dt) :
    parseAbsolute (renderLayout dt) = some dt := by
  obtain ⟨hy, hm1, hm2, hd1, hd2, hh, hmi⟩ := h
  unfold parseAbsolute renderLayout
  simp only
  rw [if_pos]
  · have ey : 1000 * digitVal (digitChar (dt.year / 1000)) +
        100 * digitVal (digitChar (dt.year / 100 % 10)) +
        10 * digitVal (digitChar (dt.year / 10 % 10)) +
        digitVal (digitChar (dt.year % 10)) = dt.year := by
      rw [digitVal_digitChar _ (by omega), digitVal_digitChar _ (by omega),
        digitVal_digitChar _ (by omega), digitVal_digitChar _ (by omega)]
      omega
    have em : 10 * digitVal (digitChar (dt.month / 10)) +
        digitVal (digitChar (dt.month % 10)) = dt.month := by
      rw [digitVal_digitChar _ (by omega), digitVal_digitChar _ (by omega)]
      omega
    have ed : 10 * digitVal (digitChar (dt.day / 10)) +
        digitVal (digitChar (dt.day % 10)) = dt.day := by
      have : dt.day ≤ 31 := by
        refine le_trans hd2 ?_
        unfold daysInMonth
        split
        · split <;> omega
        · split <;> omega
      rw [digitVal_digitChar _ (by omega), digitVal_digitChar _ (by omega)]
      omega
    have eh : 10 * digitVal (digitChar (dt.hour / 10)) +
        digitVal (digitChar (dt.hour % 10)) = dt.hour := by
      rw [digitVal_digitChar _ (by omega), digitVal_digitChar _ (by omega)]
      omega
    have emi : 10 * digitVal (digitChar (dt.minute / 10)) +
        digitVal (digitChar (dt.minute % 10)) = dt.minute := by
      rw [digitVal_digitChar _ (by omega), digitVal_digitChar _ (by omega)]
      omega
    rw [ey, em, ed, eh, emi]
    rw [if_pos ⟨hm1, hm2, hd1, hd2, hh, hmi⟩]
  · have hd31 : dt.day ≤ 31 := by
      refine le_trans hd2 ?_
      unfold daysInMonth
      split
      · split <;> omega
      · split <;> omega
    simp only [Bool.and_eq_true, decide_eq_true_eq]
    refine ⟨⟨⟨⟨⟨⟨⟨⟨⟨⟨⟨⟨⟨⟨⟨digitChar_isDigit _ (by omega), digitChar_isDigit _ (by omega)⟩,
      digitChar_isDigit _ (by omega)⟩, digitChar_isDigit _ (by omega)⟩, trivial⟩,
      digitChar_isDigit _ (by omega)⟩, digitChar_isDigit _ (by omega)⟩, trivial⟩,
      digitChar_isDigit _ (by omega)⟩, digitChar_isDigit _ (by omega)⟩, trivial⟩,
      digitChar_isDigit _ (by omega)⟩, digitChar_isDigit _ (by omega)⟩, trivial⟩,
      digitChar_isDigit _ (by omega)⟩, digitChar_isDigit _ (by omega)⟩

theorem trimSpace_render (dt : DateTime) (h : validDateTime dt) :
    trimSpace (renderLayout dt).data = (renderLayout dt).data := by
  obtain ⟨h1, -, -, -, -, -, -⟩ := h
  have hy : dt.year / 1000 ≤ 9 := by omega
  have hmi : dt.minute % 10 ≤ 9 := by omega
  exact trimSpace_eq_self (digitChar (dt.year / 1000))
    (digitChar (dt.minute % 10))
    [digitChar (dt.year / 100 % 10), digitChar (dt.year / 10 % 10),
      digitChar (dt.year % 10), '-', digitChar (dt.month / 10),
      digitChar (dt.month % 10), '-', digitChar (dt.day / 10),
      digitChar (dt.day % 10), ' ', digitChar (dt.hour / 10),
      digitChar (dt.hour % 10), ':', digitChar (dt.minute / 10)]
    (digitChar_not_ws _ hy) (digitChar_not_ws _ hmi)

/-- C6. Resolving an input exactly in the `YYYY-MM-DD HH:MM` layout returns
the absolute branch with exactly those fields, never consulting the relative
parser; an out-of-range month such as "2025-13-01 14:30" is rejected by the
absolute branch and the call then fails with the composed `invalidFormat`
error wrapping the relative parser's error (`noValidUnits` for this
input). -/
theorem parseDeadline_absolute_spec (addMonths : Nat → Int) (dt : DateTime)
    (h : validDateTime dt) :
    ParseDeadline addMonths (renderLayout dt) = .ok (.absolute dt) ∧
    parseAbsolute "2025-13-01 14:30" = none ∧
    ParseDeadline addMonths "2025-13-01 14:30" =
      .error (.invalidFormat .noValidUnits) := by
  refine ⟨?_, rfl, rfl⟩
  unfold ParseDeadline
  simp only
  rw [trimSpace_render dt h,
    show String.mk (renderLayout dt).data = renderLayout dt from rfl]
  rw [if_neg (by
    intro he
    have := congrArg String.data he
    simp [renderLayout] at this)]
  rw [parseAbsolute_render dt h]

/-- Closed instance of `parseDeadline_absolute_spec` at 2025-11-16 14:30. -/
theorem parseDeadline_absolute_spec_witness :
    validDateTime ⟨2025, 11, 16, 14, 30⟩ ∧
    (ParseDeadline (fun k => (k : Int) * 2592000000000000)
        (renderLayout ⟨2025, 11, 16, 14, 30⟩) =
      .ok (.absolute ⟨2025, 11, 16, 14, 30⟩) ∧
    parseAbsolute "2025-13-01 14:30" = none ∧
    ParseDeadline (fun k => (k : Int) * 2592000000000000) "2025-13-01 14:30" =
      .error (.invalidFormat .noValidUnits)) :=
  ⟨by constructor <;> norm_num [daysInMonth, isLeapYear],
    parseDeadline_absolute_spec (fun k => (k : Int) * 2592000000000000)
      ⟨2025, 11, 16, 14, 30⟩
      (by constructor <;> norm_num [daysInMonth, isLeapYear])⟩

end Doit
